import Mathlib

/-!
Shallow embedding of `dtcdecode_parsers/Landrover.py` (a Playwright-based
scraper for dtcdecode.com) and proofs about its data model and algorithms.

Python strings are modelled as lists of Unicode code points (`PyStr`).
External libraries (BeautifulSoup, Playwright, urllib) are modelled at their
interfaces: DOM nodes are explicit inductive values, URLs are structures of
their parsed components, and network transports are oracles.
-/

namespace Landrover

/-- A Python `str`, modelled as its list of Unicode code points. -/
abbrev PyStr := List Nat

/-- Build a `PyStr` from a Lean string literal (for concrete test inputs). -/
def str2l (s : String) : PyStr := s.data.map Char.toNat

/-- Model of Python `str.upper()` restricted to one code point (ASCII case map,
which is all the scraper's inputs use). -/
def upperChar (n : Nat) : Nat := if 97 ≤ n ∧ n ≤ 122 then n - 32 else n

/-- Model of Python `str.upper()`. -/
def pyUpper (s : PyStr) : PyStr := s.map upperChar

/-- Model of Python `str.lower()` restricted to one code point. -/
def lowerChar (n : Nat) : Nat := if 65 ≤ n ∧ n ≤ 90 then n + 32 else n

/-- Model of Python `str.lower()`. -/
def pyLower (s : PyStr) : PyStr := s.map lowerChar

/-- Model of Python `str.split(sep)` for a one-character separator.
`"".split('-') = ['']`, and every separator occurrence opens a new group. -/
def pySplitChar (sep : Nat) : PyStr → List PyStr
  | [] => [[]]
  | c :: rest =>
    if c = sep then [] :: pySplitChar sep rest
    else
      match pySplitChar sep rest with
      | [] => [[c]]
      | g :: gs => (c :: g) :: gs

/-- Value of one hex digit code point, `none` when the code point is not a
hex digit (models the `ValueError` of Python `int(_, 16)` per character). -/
def hexDigit? (n : Nat) : Option Nat :=
  if 48 ≤ n ∧ n ≤ 57 then some (n - 48)
  else if 65 ≤ n ∧ n ≤ 70 then some (n - 55)
  else if 97 ≤ n ∧ n ≤ 102 then some (n - 87)
  else none

/-- Model of Python `int(s, 16)` on the digit-only strings the scraper feeds
it: `none` (an exception) on the empty string or any non-hex-digit character. -/
def parseHex? (s : PyStr) : Option Nat :=
  if s = [] then none
  else s.foldl (fun acc c => do
    let a ← acc
    let d ← hexDigit? c
    pure (16 * a + d)) (some 0)

/-- Total hex-digit value (junk characters map to 0); used only in theorem
statements, under hypotheses that make every character a hex digit. -/
def hexVal (n : Nat) : Nat := (hexDigit? n).getD 0

/-- Numeric value of a hex-digit string, most significant digit first;
statement-side companion of `parseHex?`. -/
def hexNum (s : PyStr) : Nat := s.foldl (fun a c => 16 * a + hexVal c) 0

/-- The scraper's `nibble_map` dict: `{'P':0x0,'C':0x1,'B':0x2,'U':0x3}`;
`none` models the `KeyError` on any other letter. 80='P', 67='C', 66='B',
85='U'. -/
def nibbleMap (c : Nat) : Option Nat :=
  if c = 80 then some 0
  else if c = 67 then some 1
  else if c = 66 then some 2
  else if c = 85 then some 3
  else none

/-- Total version of `nibbleMap` for theorem statements. -/
def letterNibble (c : Nat) : Nat := (nibbleMap c).getD 0

/-- `dtc_to_hex_triplet` from the source: uppercase, split on `'-'` into
`base, fmi` (exception unless exactly two parts), take `letter = base[0]`
(exception on empty), map the letter through `nibble_map`, parse the digit
body and the fmi as hex, and return the three bytes
`(value >> 8) & 0xFF, value & 0xFF, int(fmi,16)` where
`value = (nibble << 12) + int(digits,16)`.  `none` models any raised
exception; the three result bytes stand for the formatted
`f"{high:02X} {mid:02X} {low:02X}"` string. -/
def dtc_to_hex_triplet (dtc : PyStr) : Option (Nat × Nat × Nat) :=
  match pySplitChar 45 (pyUpper dtc) with
  | [base, fmi] =>
    match base with
    | [] => none
    | letter :: digits => do
      let nib ← nibbleMap letter
      let v ← parseHex? digits
      let f ← parseHex? fmi
      let value := (nib <<< 12) + v
      pure (((value >>> 8) &&& 0xFF), (value &&& 0xFF), f)
  | _ => none

/-- `[0-9A-F]` under `re.IGNORECASE`: a hex digit in either case. -/
def isHexU (n : Nat) : Bool :=
  (48 ≤ n && n ≤ 57) || (65 ≤ n && n ≤ 70) || (97 ≤ n && n ≤ 102)

/-- `[PCBU]` under `re.IGNORECASE`. -/
def isPCBU (n : Nat) : Bool :=
  n = 80 || n = 67 || n = 66 || n = 85 || n = 112 || n = 99 || n = 98 || n = 117

/-- Exactly the 8-character shape `[PCBU][0-9A-F]{4}-[0-9A-F]{2}`
(case-insensitive); 45 = '-'. -/
def dtcCode8 (s : PyStr) : Bool :=
  match s with
  | [l, d1, d2, d3, d4, dash, f1, f2] =>
    isPCBU l && isHexU d1 && isHexU d2 && isHexU d3 && isHexU d4 &&
      dash = 45 && isHexU f1 && isHexU f2
  | _ => false

/-- `DTC_SEGMENT_RE.match(s)` where the pattern is
`^[PCBU][0-9A-F]{4}-[0-9A-F]{2}$` with `re.IGNORECASE`: in Python `$` also
matches just before a single trailing newline (10 = '\n'). -/
def dtcSegmentMatch (s : PyStr) : Bool :=
  dtcCode8 s || (dtcCode8 (s.dropLast) && s.getLast? = some 10)

/-- The `FMI_MEANINGS` dict of the source, as an association list in the
source's insertion order. -/
def FMI_MEANINGS : List (PyStr × String) :=
  [ (str2l "00", "General failure / no sub-type")
  , (str2l "11", "Circuit short to ground")
  , (str2l "12", "Circuit short to battery/positive")
  , (str2l "13", "Circuit open")
  , (str2l "14", "Circuit short to ground or open")
  , (str2l "15", "Circuit short to battery or open")
  , (str2l "16", "Circuit voltage below threshold")
  , (str2l "17", "Circuit voltage above threshold")
  , (str2l "18", "Circuit current below threshold")
  , (str2l "19", "Circuit current above threshold")
  , (str2l "21", "Signal stuck low")
  , (str2l "22", "Signal stuck high")
  , (str2l "23", "Signal intermittent/erratic")
  , (str2l "28", "Signal implausible")
  , (str2l "29", "Signal invalid")
  , (str2l "62", "Actuator stuck")
  , (str2l "63", "Actuator stuck open")
  , (str2l "64", "Actuator stuck closed")
  , (str2l "71", "Mechanical failure")
  , (str2l "72", "Calibration/parameter not learned")
  , (str2l "73", "Performance/range issue")
  , (str2l "7A", "Module not configured / software incompatible")
  , (str2l "7F", "Security/component protection fault") ]

/-- `fmi_meaning`: `FMI_MEANINGS.get(fmi_hex.upper(), "")`. -/
def fmi_meaning (fmi : PyStr) : String :=
  (FMI_MEANINGS.lookup (pyUpper fmi)).getD ""

/-! ### HTML tables

A `<table>` is modelled as its list of `<tr>` elements in document order;
each row knows whether it sits inside `<thead>` and carries its cells
(`<td>`/`<th>`) with their whitespace-collapsed text.  Text extraction
(`get_text` + whitespace collapse) is external and the collapsed text is the
model's atom. -/

structure TCell where
  isTh : Bool
  text : String
deriving DecidableEq

structure TRow where
  inThead : Bool
  cells : List TCell
deriving DecidableEq

structure TableTag where
  trs : List TRow
deriving DecidableEq

structure TableData where
  headers : List String
  rows : List (List String)
deriving DecidableEq

/-- `table_tag.select("thead th")`: the text of every `<th>` cell inside
`<thead>`, in document order. -/
def theadThTexts (t : TableTag) : List String :=
  (t.trs.filter (·.inThead)).flatMap (fun r => (r.cells.filter (·.isTh)).map (·.text))

/-- `[f"col_{i}" for i in range(h, rlen)]` appended to the headers. -/
def growHeaders (headers : List String) (rlen : Nat) : List String :=
  headers ++ (List.range' headers.length (rlen - headers.length)).map
    (fun i => "col_" ++ toString i)

/-- One iteration of the row-normalization loop of `html_table_to_data`:
short rows are right-padded with `""` to the current header width, long rows
grow the header with synthetic `col_N` names. -/
def normStep (acc : List String × List (List String)) (r : List String) :
    List String × List (List String) :=
  let h := acc.1.length
  if r.length < h then (acc.1, acc.2 ++ [r ++ List.replicate (h - r.length) ""])
  else if r.length > h then (growHeaders acc.1 r.length, acc.2 ++ [r])
  else (acc.1, acc.2 ++ [r])

/-- The whole normalization loop (`for r in rows: ...`). -/
def normalizeRows (headers : List String) (rows : List (List String)) :
    List String × List (List String) :=
  rows.foldl normStep (headers, [])

/-- `html_table_to_data`: headers from `thead th`; rows from every `<tr>`
(cells of either kind, empty cell lists skipped — note the header row is NOT
removed from the body rows when `thead` headers exist); when there are no
`thead` headers the first row is promoted to headers; then the
normalization loop runs. -/
def html_table_to_data (t : TableTag) : TableData :=
  let headers := theadThTexts t
  let rows := (t.trs.map (fun r => r.cells.map (·.text))).filter (· ≠ [])
  let hr : List String × List (List String) :=
    if headers = [] ∧ rows ≠ [] then ((rows.head?).getD [], rows.tail)
    else (headers, rows)
  let res := normalizeRows hr.1 hr.2
  ⟨res.1, res.2⟩

/-! ### Section extraction

A detail page's body is modelled as the flat sequence of sibling elements
that `extract_sections` walks: headings (`h1`-`h6`), paragraphs, lists
(`ul`/`ol` with their item texts), tables and `div`s; `other` stands for any
other sibling (skipped by the walk).  Text atoms are, as above, the
whitespace-collapsed `get_text` results. -/

inductive Node
  | para (text : String)
  | list (items : List String)
  | table (t : TableTag)
  | div (text : String)
  | heading (level : Nat) (title : String)
  | other
deriving DecidableEq

inductive Chunk
  | paragraph (text : String)
  | listBlock (items : List String)
  | table (data : TableData)
deriving DecidableEq

structure Sect where
  title : String
  order_index : Nat
  content : List Chunk
deriving DecidableEq

/-- `collect_after(heading)`: classify each following sibling until the next
`h1`/`h2`/`h3`.  Empty paragraph text yields no chunk; empty list items are
dropped and an empty surviving item list yields no chunk; a table always
yields a chunk (the Python truthiness test `if table:` is on a two-key dict,
which is always truthy); `div`s are treated like paragraphs; any other
element is skipped. -/
def collectAfter : List Node → List Chunk
  | [] => []
  | n :: rest =>
    match n with
    | .heading lvl _ =>
      if lvl = 1 ∨ lvl = 2 ∨ lvl = 3 then [] else collectAfter rest
    | .para t => (if t ≠ "" then [Chunk.paragraph t] else []) ++ collectAfter rest
    | .list items =>
      let its := items.filter (· ≠ "")
      (if its ≠ [] then [Chunk.listBlock its] else []) ++ collectAfter rest
    | .table tt => Chunk.table (html_table_to_data tt) :: collectAfter rest
    | .div t => (if t ≠ "" then [Chunk.paragraph t] else []) ++ collectAfter rest
    | .other => collectAfter rest

/-- The enumeration loop of `extract_sections`: `idx` counts every `h2`/`h3`
heading seen so far (`enumerate(soup.select("h2, h3"))`), whether or not the
heading survives the `if content:` filter. -/
def extractSectionsAux : List Node → Nat → List Sect
  | [], _ => []
  | n :: rest, idx =>
    match n with
    | .heading lvl title =>
      if lvl = 2 ∨ lvl = 3 then
        let content := collectAfter rest
        (if content ≠ [] then [⟨title, idx, content⟩] else []) ++
          extractSectionsAux rest (idx + 1)
      else extractSectionsAux rest idx
    | _ => extractSectionsAux rest idx

/-- `extract_sections` (the `if not headings: return []` early exit is
behaviorally the same as running the loop over no headings). -/
def extract_sections (page : List Node) : List Sect :=
  extractSectionsAux page 0

/-- Number of `h2`/`h3` headings on the page. -/
def countH23 (page : List Node) : Nat :=
  (page.filter (fun n => match n with
    | .heading lvl _ => lvl = 2 ∨ lvl = 3
    | _ => false)).length

/-! ### URLs and `normalize_url`

A URL is modelled as its `urlparse` components; the query is the pair list
`parse_qs(..., keep_blank_values=True)` works from.  Percent-encoding by
`urlencode` is deterministic and injective on the inputs at hand, so
rendering joins pairs with `=` and `&` verbatim. -/

structure Url where
  scheme : String
  netloc : String
  path : String
  query : List (String × String)
  fragment : String
deriving DecidableEq

/-- Python `path.rstrip("/")`: drop every trailing `'/'`. -/
def rstripSlash (s : String) : String :=
  String.mk ((s.data.reverse.dropWhile (fun c => c = '/')).reverse)

/-- Python `s.rstrip("/")` at the code-point level (47 = '/'). -/
def rstripSlashL (s : PyStr) : PyStr :=
  (s.reverse.dropWhile (fun c => c = 47)).reverse

/-- The pair list `[(k, v[0]) for k, v in parse_qs(query).items()]`:
`parse_qs` groups values per key in first-occurrence key order and `v[0]`
keeps only the first value supplied for each key. -/
def firstVals : List (String × String) → List (String × String)
  | [] => []
  | (k, v) :: rest => (k, v) :: (firstVals rest).filter (fun p => p.1 ≠ k)

/-- `str2l` is injective: distinct strings have distinct code-point lists. -/
def str2l_injective : Function.Injective str2l := by
  intro a b h
  apply String.ext
  have hc : Function.Injective (Char.toNat) := by
    intro c d hcd
    exact Char.ext (UInt32.toNat.inj hcd)
  exact List.map_injective_iff.mpr hc h

/-- Python tuple comparison used by `sorted` on `(key, value)` pairs: Python
compares strings lexicographically by code point, here via `str2l` into the
lexicographic order on `List Nat`. -/
def pairLe (a b : String × String) : Prop :=
  str2l a.1 < str2l b.1 ∨ (str2l a.1 = str2l b.1 ∧ str2l a.2 ≤ str2l b.2)

instance : DecidableRel pairLe := fun a b => by
  unfold pairLe; infer_instance

instance : IsTotal (String × String) pairLe where
  total a b := by
    unfold pairLe
    rcases lt_trichotomy (str2l a.1) (str2l b.1) with h | h | h
    · exact Or.inl (Or.inl h)
    · rcases le_total (str2l a.2) (str2l b.2) with h2 | h2
      · exact Or.inl (Or.inr ⟨h, h2⟩)
      · exact Or.inr (Or.inr ⟨h.symm, h2⟩)
    · exact Or.inr (Or.inl h)

instance : IsTrans (String × String) pairLe where
  trans a b c hab hbc := by
    unfold pairLe at *
    rcases hab with h1 | ⟨h1, h1'⟩ <;> rcases hbc with h2 | ⟨h2, h2'⟩
    · exact Or.inl (h1.trans h2)
    · exact Or.inl (h2 ▸ h1)
    · exact Or.inl (h1 ▸ h2)
    · exact Or.inr ⟨h1.trans h2, h1'.trans h2'⟩

instance : IsAntisymm (String × String) pairLe where
  antisymm a b hab hba := by
    unfold pairLe at *
    rcases hab with h1 | ⟨h1, h1'⟩ <;> rcases hba with h2 | ⟨h2, h2'⟩
    · exact absurd (h1.trans h2) (lt_irrefl _)
    · exact absurd h1 (h2 ▸ lt_irrefl _)
    · exact absurd h2 (h1 ▸ lt_irrefl _)
    · exact Prod.ext (str2l_injective h1)
        (str2l_injective (le_antisymm h1' h2'))

/-- Python `sorted` (comparison sort; ties cannot arise where this is used
with `pairLe`, whose input keys are unique after `firstVals`). -/
def pySorted (q : List (String × String)) : List (String × String) :=
  List.insertionSort pairLe q

/-- `urlencode` on the sorted pair list (encoding modelled verbatim). -/
def urlencodePairs (q : List (String × String)) : String :=
  String.intercalate "&" (q.map (fun p => p.1 ++ "=" ++ p.2))

/-- `urlunparse((scheme, netloc, path, "", query, ""))` for the component
shapes the scraper produces (non-empty netloc). -/
def urlunparseStr (scheme netloc path query : String) : String :=
  scheme ++ "://" ++ netloc ++ path ++ (if query = "" then "" else "?" ++ query)

/-- `normalize_url`: re-encode the first value of each query key in sorted
key order, strip trailing slashes from the path, drop params and fragment. -/
def normalize_url (u : Url) : String :=
  urlunparseStr u.scheme u.netloc (rstripSlash u.path)
    (urlencodePairs (pySorted (firstVals u.query)))

/-- Raw rendering of a URL (the absolute `href` string before
normalization), used for the `startswith(list_url)` in-namespace filter. -/
def renderUrl (u : Url) : String :=
  u.scheme ++ "://" ++ u.netloc ++ u.path ++
    (if u.query = [] then "" else "?" ++ urlencodePairs u.query) ++
    (if u.fragment = "" then "" else "#" ++ u.fragment)

/-! ### Link discovery -/

/-- Does the code-point list `l` end with `suf`?  (When `suf` is longer
than `l` the undropped `l` differs from `suf` by length, giving `false`.) -/
def listEndsWith (l suf : PyStr) : Bool := l.drop (l.length - suf.length) == suf

/-- `re.search` of `/{re.escape(oem)}/[PCBU][0-9A-F]{4}-[0-9A-F]{2}$`
(IGNORECASE) in a path: the path ends with `/oem/` (case-insensitively,
modelled by uppercasing both sides; 47 = '/') followed by an 8-character
DTC code. -/
def dtcPathMatch (oem path : String) : Bool :=
  let p := str2l path
  dtcCode8 (p.drop (p.length - 8)) &&
    listEndsWith (pyUpper (p.take (p.length - 8)))
      (pyUpper (47 :: str2l oem ++ [47]))

/-- Python string `≤`: lexicographic by code point, via `str2l` into the
lexicographic order on `List Nat`. -/
def strLe (a b : String) : Prop := str2l a ≤ str2l b

instance : DecidableRel strLe := fun a b => by
  unfold strLe; infer_instance

instance : IsTotal String strLe where
  total a b := le_total (str2l a) (str2l b)

instance : IsTrans String strLe where
  trans _ _ _ hab hbc := le_trans hab hbc

/-- `sorted(set(l))`: the distinct elements in ascending string order.  A
Python `set` iterates in unspecified order, which the sort erases; `dedup`
models taking the distinct elements. -/
def pySortedSetStr (l : List String) : List String :=
  List.insertionSort strLe l.dedup

/-- `sorted(..., key=str.lower)` compares the lowercased keys (again by
code point, via `str2l`). -/
def lowerLe (a b : String) : Prop := pyLower (str2l a) ≤ pyLower (str2l b)

instance : DecidableRel lowerLe := fun a b => by
  unfold lowerLe; infer_instance

instance : IsTotal String lowerLe where
  total a b := le_total (pyLower (str2l a)) (pyLower (str2l b))

instance : IsTrans String lowerLe where
  trans _ _ _ hab hbc := le_trans hab hbc

/-- `sorted(set(l), key=str.lower)`.  Note the `set` is case-SENSITIVE:
only exact duplicates collapse; `key=str.lower` affects ordering only.
(For strings equal up to case the relative output order is unspecified in
Python — the set's iteration order — and the model fixes one.) -/
def pySortedSetLower (l : List String) : List String :=
  List.insertionSort lowerLe l.dedup

/-- The link-collection tail of `PlaywrightFetcher.get_dtc_links` (after the
scrolling and anchor/text harvesting, which the `hrefs` oracle stands for):
normalize each candidate, keep those whose path ends in `/oem/<code>`, and
return `sorted(set(...))`.  Candidates whose processing raises are skipped
(`except Exception: continue`) — raising cannot happen in the model. -/
def get_dtc_links (oem : String) (hrefs : List Url) : List String :=
  let cleaned := hrefs.filterMap (fun u =>
    if dtcPathMatch oem (rstripSlash u.path) then some (normalize_url u) else none)
  pySortedSetStr cleaned

/-- `discover_listing_and_links`: concatenate every listing page's detail
links and return `sorted(set(all_links), key=str.lower)`.
(`extract_dtc_links_playwright` re-applies the same path filter,
normalization and `sorted(set(...))` to `get_dtc_links`' output, which is
idempotent on it, so one pass per page is the composite behavior.) -/
def discover_listing_and_links (oem : String) (pages : List (List Url)) : List String :=
  let all_links := (pages.map (get_dtc_links oem)).flatten
  pySortedSetLower all_links

/-- `if max_pages and len(pages) >= max_pages:` — `None` and `0` are falsy. -/
def maxHit : Option Nat → Nat → Bool
  | none, _ => false
  | some m, n => if m = 0 then false else decide (m ≤ n)

/-- The BFS loop of `discover_listing_pages`.  State: `seen` (normalized
URLs), the queue, the accumulated `pages`, and the list of URLs actually
fetched (`fetcher.get` calls), in order.  `g` is the page-link oracle
(absolute hrefs found on a fetched page) and the `startswith(list_url)`
check keeps the crawl in-namespace.  `fuel` bounds the loop (the Python
loop's termination is not modelled). -/
def discoverAux (g : Url → List Url) (listUrl : String) (maxPages : Option Nat) :
    Nat → List String → List Url → List Url → List Url → List Url × List Url
  | 0, _, _, pages, fetched => (pages, fetched)
  | _ + 1, _, [], pages, fetched => (pages, fetched)
  | fuel + 1, seen, url :: q, pages, fetched =>
    let nu := normalize_url url
    if nu ∈ seen then discoverAux g listUrl maxPages fuel seen q pages fetched
    else
      let pages' := pages ++ [url]
      let fetched' := fetched ++ [url]
      if maxHit maxPages pages'.length then (pages', fetched')
      else discoverAux g listUrl maxPages fuel (nu :: seen)
        (q ++ (g url).filter (fun v => (renderUrl v).startsWith listUrl))
        pages' fetched'

/-- `discover_listing_pages` up to its final `sorted(set(pages))`: returns
the visited listing pages and the fetch log. -/
def discover_listing_pages (g : Url → List Url) (listUrl : String) (start : Url)
    (maxPages : Option Nat) (fuel : Nat) : List Url × List Url :=
  discoverAux g listUrl maxPages fuel [] [start] [] []

/-! ### Detail records and `parse_detail_page` -/

/-- The per-page record dict.  Optional fields model keys that are simply
absent from the dict when their guard does not fire. -/
structure DetailRecord where
  dtc : PyStr
  url : String
  definition : Option String
  base_code : Option PyStr := none
  fmi_hex : Option PyStr := none
  fmi_meaning : Option String := none
  hex_triplet : Option (Nat × Nat × Nat) := none
  sections : List Sect := []
deriving DecidableEq

/-- `url.rstrip("/").split("/")[-1]` as a `PyStr` (47 = '/'; `split` always
returns a non-empty list, so the `getD` default is unreachable). -/
def lastSeg (url : String) : PyStr :=
  ((pySplitChar 47 (rstripSlashL (str2l url))).getLast?).getD []

/-- `parse_detail_page`.  `titleDtc`/`titleDef` are the pair returned by
`parse_title_and_definition` (whose regex work on the soup is external; it
returns either an uppercased code or `None`, but the model accepts any
string).  When the title yields no code, the code falls back to the
uppercased last URL segment.  Only when `DTC_SEGMENT_RE` matches are
`base_code`, `fmi_hex`, `fmi_meaning` and (when conversion does not raise)
`hex_triplet` added.  Under the regex match the `'-'` split has exactly two
parts, so the unreachable arm returns the bare record. -/
def parse_detail_page (titleDtc : Option PyStr) (titleDef : Option String)
    (url : String) (page : List Node) : DetailRecord :=
  let dtc := titleDtc.getD (pyUpper (lastSeg url))
  let base : DetailRecord :=
    { dtc := dtc, url := url, definition := titleDef
      sections := extract_sections page }
  if dtcSegmentMatch dtc then
    match pySplitChar 45 (pyUpper dtc) with
    | [b, f] =>
      { base with
        base_code := some b, fmi_hex := some f
        fmi_meaning := some (fmi_meaning f)
        hex_triplet := dtc_to_hex_triplet dtc }
    | _ => base
  else base

/-! ### Orchestration (`scrape_oem` detail loop) -/

/-- Result of a fallible step (Python try/except boundary). -/
inductive PRes (α : Type) where
  | ok (a : α)
  | exn (msg : String)
deriving DecidableEq

/-- What a successful fetch+soup of one detail page yields, at the interface
the pure parser consumes. -/
structure PageData where
  titleDtc : Option PyStr
  titleDef : Option String
  page : List Node

/-- Fetch then parse one detail URL: any exception inside the per-URL `try`
body aborts that URL only. -/
def processUrl (fetchPage : String → PRes PageData) (url : String) :
    PRes DetailRecord :=
  match fetchPage url with
  | .exn e => .exn e
  | .ok pd => .ok (parse_detail_page pd.titleDtc pd.titleDef url pd.page)

/-- One line of the streamed output: a full record, or the error line
`{"dtc": None, "url": url, "error": str(e)}`. -/
inductive Emitted where
  | detail (r : DetailRecord)
  | error (url : String) (msg : String)
deriving DecidableEq

/-- The URL an emitted line accounts for. -/
def emittedUrl : Emitted → String
  | .detail r => r.url
  | .error url _ => url

/-- Is the line a successful detail record? -/
def isDetail : Emitted → Bool
  | .detail _ => true
  | .error _ _ => false

/-- The detail loop of `scrape_oem`: for each discovered link, try to fetch
and parse; on success stream the record, on any exception stream an error
line carrying the URL; always move on to the next link. -/
def scrapeDetailLoop (fetchPage : String → PRes PageData) (links : List String) :
    List Emitted :=
  links.map (fun url =>
    match processUrl fetchPage url with
    | .ok r => .detail r
    | .exn e => .error url e)

/-! ### `PlaywrightFetcher.get`

`get` navigates once (`page.goto`), swallows any consent-dialog failure,
sleeps politely and returns the rendered content.  The transport is an
oracle indexed by attempt number so that the number of attempts consumed is
observable; `goto` raising propagates to the caller unchanged. -/

structure GetResult where
  result : PRes String
  attempts : Nat
  uaRotations : Nat
deriving DecidableEq

/-- `PlaywrightFetcher.get`: exactly one `goto`, no retry, no user-agent
rotation; an exception from the transport propagates immediately. -/
def playwright_get (transport : Nat → PRes String) : GetResult :=
  { result := transport 0, attempts := 1, uaRotations := 0 }

/-- Modelled from the spec: helper for the retry policy §4.1 ascribes to
`Fetcher.get` — `i` is the attempt about to be made, `r` the attempts still
allowed (structural fuel). -/
def spec_retry_aux (transport : Nat → PRes String) : Nat → Nat → PRes String
  | _, 0 => .exn "no attempts"
  | i, r + 1 =>
    match transport i with
    | .ok html => .ok html
    | .exn e => if r = 0 then .exn e else spec_retry_aux transport (i + 1) r

/-- Modelled from the spec: the retry/backoff policy §4.1 ascribes to
`Fetcher.get` (maximum 5 attempts; blocking/transient/transport failures are
retried; the last error is surfaced only when all 5 attempts are
exhausted).  The waits, identity rotation and backoff multipliers are
timing-only and unobservable in the returned value; what is observable is
which attempt's outcome is surfaced.  This definition follows the spec's
words, for comparison with `playwright_get`, which embeds the source. -/
def spec_retry_get (transport : Nat → PRes String) : PRes String :=
  spec_retry_aux transport 0 5

/-- A concrete fetch oracle for a 5-link run in which fetching the third
detail URL permanently fails after retries and the other four succeed. -/
def failingFetcher : String → PRes PageData := fun u =>
  if u = "u3" then .exn "net: permanently failed"
  else .ok ⟨some (str2l "P0300-00"), some "Random Misfire Detected", []⟩

/-!  ## Theorems  -/

/-- No character of a hex-digit class is the separator `'-'` (45), before or
after uppercasing. -/
theorem upperChar_hex_ne_dash {n : Nat} (h : isHexU n = true) :
    upperChar n ≠ 45 := by
  simp only [isHexU, Bool.or_eq_true, Bool.and_eq_true, decide_eq_true_eq] at h
  unfold upperChar
  split <;> omega

/-- An uppercased `[PCBU]`-class character is never the separator. -/
theorem upperChar_pcbu_ne_dash {n : Nat} (h : isPCBU n = true) :
    upperChar n ≠ 45 := by
  simp only [isPCBU, Bool.or_eq_true, decide_eq_true_eq] at h
  unfold upperChar
  rcases h with ((((((h | h) | h) | h) | h) | h) | h) | h <;> subst h <;> decide

/-- Uppercasing preserves the hex value of any code point. -/
theorem hexDigit?_upperChar (n : Nat) :
    hexDigit? (upperChar n) = hexDigit? n := by
  unfold upperChar hexDigit?
  split_ifs <;> first | rfl | omega

/-- A hex-digit-class character has a hex value. -/
theorem hexDigit?_of_isHexU {n : Nat} (h : isHexU n = true) :
    hexDigit? n = some (hexVal n) := by
  simp only [isHexU, Bool.or_eq_true, Bool.and_eq_true, decide_eq_true_eq] at h
  unfold hexDigit? hexVal hexDigit?
  split_ifs <;> first | rfl | omega

/-- `str.split(sep)` on a string without the separator is one group. -/
theorem pySplit_no_sep {sep : Nat} :
    ∀ {ys : PyStr}, (∀ c ∈ ys, c ≠ sep) → pySplitChar sep ys = [ys]
  | [], _ => rfl
  | c :: rest, h => by
    have hc : c ≠ sep := h c (List.mem_cons_self _ _)
    have ih := pySplit_no_sep (fun x hx => h x (List.mem_cons_of_mem _ hx))
    simp [pySplitChar, hc, ih]

/-- `str.split(sep)` on a string with exactly one separator occurrence
yields the two surrounding groups. -/
theorem pySplit_pair {sep : Nat} :
    ∀ (xs ys : PyStr), (∀ c ∈ xs, c ≠ sep) → (∀ c ∈ ys, c ≠ sep) →
      pySplitChar sep (xs ++ sep :: ys) = [xs, ys]
  | [], ys, _, hy => by simp [pySplitChar, pySplit_no_sep hy]
  | x :: xs, ys, hx, hy => by
    have h1 : x ≠ sep := hx x (List.mem_cons_self _ _)
    have h2 := pySplit_pair xs ys (fun c hc => hx c (List.mem_cons_of_mem _ hc)) hy
    simp [pySplitChar, h1, h2]

/-- `int(_, 16)` over valid hex digits computes the `hexNum` fold. -/
theorem parseHex?_foldl_aux :
    ∀ (s : PyStr) (a : Nat), (∀ c ∈ s, isHexU c = true) →
      s.foldl (fun acc c => do
        let a ← acc
        let d ← hexDigit? c
        pure (16 * a + d)) (some a) =
        some (s.foldl (fun a c => 16 * a + hexVal c) a)
  | [], _, _ => rfl
  | c :: rest, a, h => by
    have hc : hexDigit? c = some (hexVal c) :=
      hexDigit?_of_isHexU (h c (List.mem_cons_self _ _))
    have ih := parseHex?_foldl_aux rest (16 * a + hexVal c)
      (fun x hx => h x (List.mem_cons_of_mem _ hx))
    simp only [List.foldl, hc, Option.bind_some, Option.bind]
    exact ih

/-- `int(_, 16)` on a non-empty all-hex string succeeds with its value. -/
theorem parseHex?_eq_hexNum {s : PyStr} (hne : s ≠ [])
    (h : ∀ c ∈ s, isHexU c = true) : parseHex? s = some (hexNum s) := by
  unfold parseHex? hexNum
  rw [if_neg hne]
  exact parseHex?_foldl_aux s 0 h

/-- Uppercasing preserves `hexVal`. -/
theorem hexVal_upperChar (n : Nat) : hexVal (upperChar n) = hexVal n := by
  unfold hexVal
  rw [hexDigit?_upperChar]

/-- Uppercasing keeps a hex digit in the hex-digit class. -/
theorem isHexU_upperChar {n : Nat} (h : isHexU n = true) :
    isHexU (upperChar n) = true := by
  simp only [isHexU, Bool.or_eq_true, Bool.and_eq_true, decide_eq_true_eq] at h ⊢
  unfold upperChar
  split <;> omega

/-- The uppercased letter of a case-insensitive `[PCBU]` match is in the
`nibble_map` dict, with its `letterNibble` value. -/
theorem nibbleMap_upperChar_pcbu {n : Nat} (h : isPCBU n = true) :
    nibbleMap (upperChar n) = some (letterNibble (upperChar n)) := by
  simp only [isPCBU, Bool.or_eq_true, decide_eq_true_eq] at h
  rcases h with ((((((h | h) | h) | h) | h) | h) | h) | h <;> subst h <;> decide

/-- C1 (amended): for every `Code` string `{letter}{4 hex digits}-{2 hex
digits}` with letter in `{P,C,B,U}` (either case), `dtc_to_hex_triplet`
succeeds and returns exactly three bytes where, with nibble(P)=0, nibble(C)=1,
nibble(B)=2, nibble(U)=3 and `value = (nibble <<< 12) + body` (the SUM, not
the bitwise OR, so when the body's bit 12 or 13 overlaps the nibble the sum
carries and may exceed 16 bits), the first byte is `(value >>> 8) &&& 0xFF`,
the second is `value &&& 0xFF`, and the third is the 2-hex-digit fault
suffix's value.  In particular `P05FF-00` yields `05 FF 00`, but `C1A2B-11`
yields `2A 2B 11`, not the OR-value's bytes `1A 2B`. -/
theorem dtc_to_hex_triplet_bytes (l d1 d2 d3 d4 f1 f2 : Nat)
    (hl : isPCBU l = true) (h1 : isHexU d1 = true) (h2 : isHexU d2 = true)
    (h3 : isHexU d3 = true) (h4 : isHexU d4 = true)
    (h5 : isHexU f1 = true) (h6 : isHexU f2 = true) :
    dtc_to_hex_triplet [l, d1, d2, d3, d4, 45, f1, f2] =
      some ((((letterNibble (upperChar l) <<< 12) + hexNum [d1, d2, d3, d4]) >>> 8) &&& 0xFF,
            ((letterNibble (upperChar l) <<< 12) + hexNum [d1, d2, d3, d4]) &&& 0xFF,
            hexNum [f1, f2]) := by
  have e45 : upperChar 45 = 45 := by decide
  have hsplit : pySplitChar 45 (pyUpper [l, d1, d2, d3, d4, 45, f1, f2]) =
      [[upperChar l, upperChar d1, upperChar d2, upperChar d3, upperChar d4],
       [upperChar f1, upperChar f2]] := by
    show pySplitChar 45 ([l, d1, d2, d3, d4, 45, f1, f2].map upperChar) = _
    simp only [List.map, e45]
    have := @pySplit_pair 45
      [upperChar l, upperChar d1, upperChar d2, upperChar d3, upperChar d4]
      [upperChar f1, upperChar f2]
      (by
        intro c hc
        simp only [List.mem_cons, List.not_mem_nil, or_false] at hc
        rcases hc with rfl | rfl | rfl | rfl | rfl
        · exact upperChar_pcbu_ne_dash hl
        · exact upperChar_hex_ne_dash h1
        · exact upperChar_hex_ne_dash h2
        · exact upperChar_hex_ne_dash h3
        · exact upperChar_hex_ne_dash h4)
      (by
        intro c hc
        simp only [List.mem_cons, List.not_mem_nil, or_false] at hc
        rcases hc with rfl | rfl
        · exact upperChar_hex_ne_dash h5
        · exact upperChar_hex_ne_dash h6)
    simpa using this
  unfold dtc_to_hex_triplet
  rw [hsplit]
  have hdig : parseHex? [upperChar d1, upperChar d2, upperChar d3, upperChar d4] =
      some (hexNum [d1, d2, d3, d4]) := by
    rw [parseHex?_eq_hexNum (by simp)
      (by
        intro c hc
        simp only [List.mem_cons, List.not_mem_nil, or_false] at hc
        rcases hc with rfl | rfl | rfl | rfl
        · exact isHexU_upperChar h1
        · exact isHexU_upperChar h2
        · exact isHexU_upperChar h3
        · exact isHexU_upperChar h4)]
    unfold hexNum
    simp [List.foldl, hexVal_upperChar]
  have hfmi : parseHex? [upperChar f1, upperChar f2] = some (hexNum [f1, f2]) := by
    rw [parseHex?_eq_hexNum (by simp)
      (by
        intro c hc
        simp only [List.mem_cons, List.not_mem_nil, or_false] at hc
        rcases hc with rfl | rfl
        · exact isHexU_upperChar h5
        · exact isHexU_upperChar h6)]
    unfold hexNum
    simp [List.foldl, hexVal_upperChar]
  simp [nibbleMap_upperChar_pcbu hl, hdig, hfmi]

/-- C1 witness: the amended theorem applied to `C1A2B-11` (code points
67 49 65 50 66 45 49 49) gives the bytes `2A 2B 11` = (42, 43, 17). -/
theorem dtc_to_hex_triplet_bytes_witness :
    dtc_to_hex_triplet [67, 49, 65, 50, 66, 45, 49, 49] = some (42, 43, 17) := by
  have h := dtc_to_hex_triplet_bytes 67 49 65 50 66 49 49 (by decide) (by decide)
    (by decide) (by decide) (by decide) (by decide) (by decide)
  rw [h]
  decide

/-- C1 counterexample: at the claim's own input `C1A2B-11` the code returns
first byte `0x2A` (from `value = (1 <<< 12) + 0x1A2B = 0x2A2B`), while the
claim's formula `value = (1 <<< 12) ||| 0x1A2B = 0x1A2B` (body bit 12 is
already set, so OR loses the carry) predicts first byte `0x1A`; the two
differ, refuting the claim as stated. -/
theorem dtc_to_hex_triplet_or_counterexample :
    dtc_to_hex_triplet (str2l "C1A2B-11") = some (0x2A, 0x2B, 0x11) ∧
    (((1 <<< 12) ||| 0x1A2B) >>> 8) &&& 0xFF = 0x1A ∧
    (0x2A : Nat) ≠ 0x1A := by
  refine ⟨by decide, by decide, by decide⟩

/-- Each normalization step appends exactly one output row and only ever
extends the header list on the right. -/
theorem normStep_shape (hs : List String) (acc : List (List String))
    (r : List String) :
    ∃ ext row, normStep (hs, acc) r = (hs ++ ext, acc ++ [row]) := by
  unfold normStep
  dsimp only
  split_ifs with hlt hgt
  · exact ⟨[], r ++ List.replicate (hs.length - r.length) "", by simp⟩
  · exact ⟨(List.range' hs.length (r.length - hs.length)).map
      (fun i => "col_" ++ toString i), r, by simp [growHeaders]⟩
  · exact ⟨[], r, by simp⟩

/-- Across the whole loop the header only grows and each input row yields
exactly one output row. -/
theorem normalizeRows_foldl_shape :
    ∀ (rows : List (List String)) (hs : List String) (acc : List (List String)),
      ∃ ext acc2, rows.foldl normStep (hs, acc) = (hs ++ ext, acc ++ acc2) ∧
        acc2.length = rows.length
  | [], hs, acc => ⟨[], [], by simp⟩
  | r :: rest, hs, acc => by
    obtain ⟨e1, row, hstep⟩ := normStep_shape hs acc r
    obtain ⟨e2, acc2, hrec, hlen⟩ := normalizeRows_foldl_shape rest (hs ++ e1) (acc ++ [row])
    refine ⟨e1 ++ e2, [row] ++ acc2, ?_, by simp [hlen]⟩
    simp only [List.foldl, hstep, hrec, List.append_assoc]

/-- C3: table-row normalization.  (i) With header `[A,B]`, the row `[x]` is
right-padded to `[x,""]`; a row `[x,y,z]` grows the header to
`[A,B,col_2]` and is kept unchanged; and the growth persists, so a
subsequent row `[w]` is padded to the grown width `[w,"",""]`.  (ii) In
general a row shorter than the current header is right-padded with `""` to
the header's width, (iii) a row longer than the current header extends the
header with synthetic names `col_N` for the missing positions and is kept
unchanged, (iv) the header only grows (cumulatively) across the table and
never shrinks, and (v) every input row yields exactly one output row. -/
theorem table_row_normalization :
    normalizeRows ["A", "B"] [["x"], ["x", "y", "z"], ["w"]] =
      (["A", "B", "col_2"], [["x", ""], ["x", "y", "z"], ["w", "", ""]]) ∧
    (∀ hs acc r, r.length < hs.length →
      normStep (hs, acc) r = (hs, acc ++ [r ++ List.replicate (hs.length - r.length) ""])) ∧
    (∀ hs acc r, hs.length < r.length →
      normStep (hs, acc) r =
        (hs ++ (List.range' hs.length (r.length - hs.length)).map
          (fun i => "col_" ++ toString i), acc ++ [r])) ∧
    (∀ hs rows, ∃ ext, (normalizeRows hs rows).1 = hs ++ ext) ∧
    (∀ hs rows, (normalizeRows hs rows).2.length = rows.length) := by
  refine ⟨by decide, ?_, ?_, ?_, ?_⟩
  · intro hs acc r hlt
    unfold normStep
    dsimp only
    rw [if_pos hlt]
  · intro hs acc r hgt
    unfold normStep
    dsimp only
    rw [if_neg (by omega), if_pos hgt]
    simp [growHeaders]
  · intro hs rows
    obtain ⟨ext, acc2, h, _⟩ := normalizeRows_foldl_shape rows hs []
    exact ⟨ext, by simp [normalizeRows, h]⟩
  · intro hs rows
    obtain ⟨ext, acc2, h, hlen⟩ := normalizeRows_foldl_shape rows hs []
    simp [normalizeRows, h, hlen]

/-- C3 witness: the padding law applied at header `["A","B"]` and row
`["x"]` gives `["x",""]`. -/
theorem table_row_normalization_witness :
    normStep (["A", "B"], []) ["x"] = (["A", "B"], [["x", ""]]) := by
  have h := table_row_normalization.2.1 ["A", "B"] [] ["x"] (by decide)
  simpa using h

/-- Section indices emitted from counter `idx` onward are at least `idx`,
belong to non-empty-content headings, stay below `idx` plus the number of
`h2`/`h3` headings, and are strictly increasing. -/
theorem extractSectionsAux_bounds (page : List Node) :
    ∀ idx : Nat,
      (∀ s ∈ extractSectionsAux page idx,
        idx ≤ s.order_index ∧ s.content ≠ [] ∧
          s.order_index < idx + countH23 page) ∧
      ((extractSectionsAux page idx).map Sect.order_index).Pairwise (· < ·) := by
  induction page with
  | nil => intro idx; simp [extractSectionsAux]
  | cons n rest ih =>
    intro idx
    cases n with
    | heading lvl title =>
      by_cases h23 : lvl = 2 ∨ lvl = 3
      · have hcount : countH23 (Node.heading lvl title :: rest) =
            countH23 rest + 1 := by
          simp [countH23, List.filter_cons, h23]
        have heq : extractSectionsAux (Node.heading lvl title :: rest) idx =
            (if collectAfter rest ≠ [] then [⟨title, idx, collectAfter rest⟩]
              else []) ++ extractSectionsAux rest (idx + 1) := by
          simp only [extractSectionsAux]
          rw [if_pos h23]
        rw [heq, hcount]
        obtain ⟨ihb, ihp⟩ := ih (idx + 1)
        constructor
        · intro s hs
          rw [List.mem_append] at hs
          rcases hs with hs | hs
          · by_cases hc : collectAfter rest ≠ []
            · rw [if_pos hc] at hs
              simp only [List.mem_singleton] at hs
              subst hs
              exact ⟨le_refl _, hc, by show idx < idx + (countH23 rest + 1); omega⟩
            · rw [if_neg hc] at hs
              simp at hs
          · obtain ⟨hle, hcon, hlt⟩ := ihb s hs
            exact ⟨by omega, hcon, by omega⟩
        · by_cases hc : collectAfter rest ≠ []
          · rw [if_pos hc, List.map_append]
            simp only [List.map_cons, List.map_nil]
            rw [List.singleton_append, List.pairwise_cons]
            refine ⟨?_, ihp⟩
            intro b hb
            rw [List.mem_map] at hb
            obtain ⟨s, hs, rfl⟩ := hb
            have hb1 := (ihb s hs).1
            show idx < Sect.order_index s
            omega
          · rw [if_neg hc]
            simpa using ihp
      · have hcount : countH23 (Node.heading lvl title :: rest) =
            countH23 rest := by
          simp [countH23, List.filter_cons, h23]
        have heq : extractSectionsAux (Node.heading lvl title :: rest) idx =
            extractSectionsAux rest idx := by
          simp only [extractSectionsAux]
          rw [if_neg h23]
        rw [heq, hcount]
        exact ih idx
    | para t =>
      have heq : extractSectionsAux (Node.para t :: rest) idx =
          extractSectionsAux rest idx := by
        simp only [extractSectionsAux]
      rw [heq, show countH23 (Node.para t :: rest) = countH23 rest from by
        simp [countH23, List.filter_cons]]
      exact ih idx
    | list items =>
      have heq : extractSectionsAux (Node.list items :: rest) idx =
          extractSectionsAux rest idx := by
        simp only [extractSectionsAux]
      rw [heq, show countH23 (Node.list items :: rest) = countH23 rest from by
        simp [countH23, List.filter_cons]]
      exact ih idx
    | table tt =>
      have heq : extractSectionsAux (Node.table tt :: rest) idx =
          extractSectionsAux rest idx := by
        simp only [extractSectionsAux]
      rw [heq, show countH23 (Node.table tt :: rest) = countH23 rest from by
        simp [countH23, List.filter_cons]]
      exact ih idx
    | div t =>
      have heq : extractSectionsAux (Node.div t :: rest) idx =
          extractSectionsAux rest idx := by
        simp only [extractSectionsAux]
      rw [heq, show countH23 (Node.div t :: rest) = countH23 rest from by
        simp [countH23, List.filter_cons]]
      exact ih idx
    | other =>
      have heq : extractSectionsAux (Node.other :: rest) idx =
          extractSectionsAux rest idx := by
        simp only [extractSectionsAux]
      rw [heq, show countH23 (Node.other :: rest) = countH23 rest from by
        simp [countH23, List.filter_cons]]
      exact ih idx

/-- C4 (amended): in the ordered output of `extract_sections` the
`order_index` values are strictly increasing in document order, every
emitted Section has surviving content (a heading with none is omitted
entirely rather than emitted empty), and each `order_index` is the index of
the Section's heading among ALL `h2`/`h3` headings of the page — in
particular it is bounded by their count, but the first emitted Section's
`order_index` is 0 only when the first `h2`/`h3` heading itself has
surviving content, since omitted headings still advance the counter. -/
theorem extract_sections_order_index (page : List Node) :
    ((extract_sections page).map Sect.order_index).Pairwise (· < ·) ∧
    (∀ s ∈ extract_sections page, s.content ≠ []) ∧
    (∀ s ∈ extract_sections page, s.order_index < countH23 page) := by
  obtain ⟨hb, hp⟩ := extractSectionsAux_bounds page 0
  exact ⟨hp, fun s hs => (hb s hs).2.1, fun s hs => by have := (hb s hs).2.2; omega⟩

/-- C4 witness: the amended invariants evaluated on a concrete two-heading
page whose first heading has no content. -/
theorem extract_sections_order_index_witness :
    ((extract_sections [Node.heading 2 "Empty", Node.heading 2 "Causes",
      Node.para "text"]).map Sect.order_index).Pairwise (· < ·) :=
  (extract_sections_order_index _).1

/-- C4 counterexample: on a page whose first `h2` heading has no surviving
content and whose second `h2` heading has a paragraph, the single emitted
Section has `order_index` 1, not 0: the first emitted Section of a document
does not always carry `order_index` 0, because sections are numbered by
`enumerate` over all `h2`/`h3` headings including the omitted ones. -/
theorem extract_sections_first_index_counterexample :
    (extract_sections [Node.heading 2 "Empty", Node.heading 2 "Causes",
      Node.para "text"]).map Sect.order_index = [1] ∧ (1 : Nat) ≠ 0 := by
  exact ⟨by decide, by decide⟩

/-- `sorted(set(...), key=str.lower)` yields distinct elements. -/
theorem pySortedSetLower_nodup (l : List String) : (pySortedSetLower l).Nodup :=
  ((List.perm_insertionSort lowerLe l.dedup).symm).nodup (List.nodup_dedup l)

/-- `sorted(set(...), key=str.lower)` is ordered by the lowercased keys. -/
theorem pySortedSetLower_sorted (l : List String) :
    List.Sorted lowerLe (pySortedSetLower l) :=
  List.sorted_insertionSort lowerLe l.dedup

/-- C2 (amended): the discovered detail links are deduplicated by EXACT
normalized URL — the Python `set` is case-sensitive — and merely ORDERED
case-insensitively (`sorted(..., key=str.lower)`), so no exact duplicate
survives but links differing only in letter case remain distinct. -/
theorem discovered_links_dedup (oem : String) (pages : List (List Url)) :
    (discover_listing_and_links oem pages).Nodup ∧
    List.Sorted lowerLe (discover_listing_and_links oem pages) :=
  ⟨pySortedSetLower_nodup _, pySortedSetLower_sorted _⟩

set_option maxRecDepth 40000 in
/-- C2 counterexample: the two detail links `/Land-Rover/p05ff-00` and
`/Land-Rover/P05FF-00`, which differ only in letter case, do NOT collapse:
discovery returns both (two links, each present), refuting the claimed
case-insensitive deduplication. -/
theorem discovered_links_case_counterexample :
    (discover_listing_and_links "Land-Rover"
      [[⟨"https", "www.dtcdecode.com", "/Land-Rover/p05ff-00", [], ""⟩,
        ⟨"https", "www.dtcdecode.com", "/Land-Rover/P05FF-00", [], ""⟩]]).length = 2 ∧
    "https://www.dtcdecode.com/Land-Rover/p05ff-00" ∈
      discover_listing_and_links "Land-Rover"
        [[⟨"https", "www.dtcdecode.com", "/Land-Rover/p05ff-00", [], ""⟩,
          ⟨"https", "www.dtcdecode.com", "/Land-Rover/P05FF-00", [], ""⟩]] ∧
    "https://www.dtcdecode.com/Land-Rover/P05FF-00" ∈
      discover_listing_and_links "Land-Rover"
        [[⟨"https", "www.dtcdecode.com", "/Land-Rover/p05ff-00", [], ""⟩,
          ⟨"https", "www.dtcdecode.com", "/Land-Rover/P05FF-00", [], ""⟩]] := by
  refine ⟨by decide, by decide, by decide⟩

/-- A successfully parsed record carries the URL it was fetched from. -/
theorem parse_detail_page_url (titleDtc : Option PyStr) (titleDef : Option String)
    (url : String) (page : List Node) :
    (parse_detail_page titleDtc titleDef url page).url = url := by
  unfold parse_detail_page
  dsimp only
  split
  · split <;> rfl
  · rfl

/-- `processUrl` returns records carrying their own URL. -/
theorem processUrl_url {fetchPage : String → PRes PageData} {u : String}
    {r : DetailRecord} (h : processUrl fetchPage u = .ok r) : r.url = u := by
  unfold processUrl at h
  cases hf : fetchPage u with
  | exn e => rw [hf] at h; cases h
  | ok pd =>
    rw [hf] at h
    cases h
    exact parse_detail_page_url _ _ _ _

/-- Each loop iteration's emitted line accounts for its own URL. -/
theorem emittedUrl_loop (fetchPage : String → PRes PageData) (u : String) :
    emittedUrl (match processUrl fetchPage u with
      | .ok r => Emitted.detail r
      | .exn e => Emitted.error u e) = u := by
  cases hf : processUrl fetchPage u with
  | ok r => simpa only [emittedUrl] using processUrl_url hf
  | exn e => rfl

/-- The emitted stream is in one-to-one URL-preserving correspondence with
the link list. -/
theorem scrapeDetailLoop_urls (fetchPage : String → PRes PageData) :
    ∀ links : List String, (scrapeDetailLoop fetchPage links).map emittedUrl = links
  | [] => rfl
  | u :: rest => by
    have ih := scrapeDetailLoop_urls fetchPage rest
    show emittedUrl _ :: (scrapeDetailLoop fetchPage rest).map emittedUrl = u :: rest
    rw [ih, emittedUrl_loop]

/-- C5: every discovered detail link yields exactly one emitted line — a
detail record on success, an error line carrying the URL and the error text
on failure — in link order with no omission and no duplication, and one
failing URL never aborts the loop; concretely, a 5-link run whose third
fetch permanently fails emits exactly 4 detail records and 1 error record
naming `u3`. -/
theorem run_full_accounting :
    (∀ (fetchPage : String → PRes PageData) (links : List String),
      (scrapeDetailLoop fetchPage links).map emittedUrl = links ∧
      (scrapeDetailLoop fetchPage links).length = links.length) ∧
    ((scrapeDetailLoop failingFetcher ["u1", "u2", "u3", "u4", "u5"]).filter
      isDetail).length = 4 ∧
    ((scrapeDetailLoop failingFetcher ["u1", "u2", "u3", "u4", "u5"]).filter
      (fun e => !(isDetail e))).length = 1 ∧
    Emitted.error "u3" "net: permanently failed" ∈
      scrapeDetailLoop failingFetcher ["u1", "u2", "u3", "u4", "u5"] := by
  refine ⟨fun fp links => ⟨scrapeDetailLoop_urls fp links, ?_⟩,
    by decide, by decide, by decide⟩
  unfold scrapeDetailLoop
  simp

/-- C6 (amended): `PlaywrightFetcher.get` makes exactly ONE fetch attempt
per call — the code contains no retry loop, no user-agent rotation and no
backoff — and the outcome of that single attempt (page content or raised
transport error) is surfaced to the caller immediately. -/
theorem playwright_get_single_attempt (transport : Nat → PRes String) :
    (playwright_get transport).attempts = 1 ∧
    (playwright_get transport).uaRotations = 0 ∧
    (∀ e, transport 0 = PRes.exn e →
      (playwright_get transport).result = PRes.exn e) ∧
    (∀ html, transport 0 = PRes.ok html →
      (playwright_get transport).result = PRes.ok html) := by
  refine ⟨rfl, rfl, ?_, ?_⟩ <;> intro x hx <;> simp [playwright_get, hx]

/-- C6 witness: on a transport whose first attempt raises, the single
attempt's error is surfaced directly. -/
theorem playwright_get_single_attempt_witness :
    (playwright_get (fun _ => PRes.exn "net::ERR_TIMED_OUT")).result =
      PRes.exn "net::ERR_TIMED_OUT" :=
  (playwright_get_single_attempt (fun _ => PRes.exn "net::ERR_TIMED_OUT")).2.2.1
    "net::ERR_TIMED_OUT" rfl

/-- C6 counterexample: take the transport that fails on the first attempt
and would succeed on every later one.  The claimed ≤5-attempt
retry/backoff/rotation policy (`spec_retry_get`, modelled from the spec's
words) recovers and returns the page, but the code's
`PlaywrightFetcher.get` performs exactly one attempt and surfaces the first
error — refuting the claim that `get` retries blocking/transient/transport
failures up to 5 attempts. -/
theorem playwright_get_retry_counterexample :
    playwright_get (fun n => if n = 0 then PRes.exn "timeout" else PRes.ok "<html>") =
      ⟨PRes.exn "timeout", 1, 0⟩ ∧
    spec_retry_get (fun n => if n = 0 then PRes.exn "timeout" else PRes.ok "<html>") =
      PRes.ok "<html>" ∧
    PRes.exn "timeout" ≠ (PRes.ok "<html>" : PRes String) := by
  refine ⟨rfl, by decide, by decide⟩

/-- BFS invariant: when the fetch log's normalized URLs are distinct and
all recorded in `seen`, every continuation of the crawl keeps the fetch
log's normalized URLs distinct. -/
theorem discoverAux_nodup (g : Url → List Url) (listUrl : String)
    (maxPages : Option Nat) :
    ∀ (fuel : Nat) (seen : List String) (q pages fetched : List Url),
      (fetched.map normalize_url).Nodup →
      (∀ s ∈ fetched.map normalize_url, s ∈ seen) →
      (((discoverAux g listUrl maxPages fuel seen q pages fetched).2).map
        normalize_url).Nodup
  | 0, seen, q, pages, fetched, hn, _ => hn
  | fuel + 1, seen, [], pages, fetched, hn, _ => hn
  | fuel + 1, seen, url :: q, pages, fetched, hn, hs => by
    simp only [discoverAux]
    by_cases hmem : normalize_url url ∈ seen
    · rw [if_pos hmem]
      exact discoverAux_nodup g listUrl maxPages fuel seen q pages fetched hn hs
    · rw [if_neg hmem]
      have hnotin : normalize_url url ∉ fetched.map normalize_url :=
        fun hin => hmem (hs _ hin)
      have hn' : ((fetched ++ [url]).map normalize_url).Nodup := by
        rw [List.map_append]
        rw [List.nodup_append]
        exact ⟨hn, List.nodup_singleton _, by simpa using hnotin⟩
      have hs' : ∀ s ∈ (fetched ++ [url]).map normalize_url,
          s ∈ normalize_url url :: seen := by
        intro s hsm
        rw [List.map_append] at hsm
        rcases List.mem_append.mp hsm with hsm | hsm
        · exact List.mem_cons_of_mem _ (hs s hsm)
        · simp only [List.map_cons, List.map_nil, List.mem_singleton] at hsm
          simp [hsm]
      by_cases hmax : maxHit maxPages (pages ++ [url]).length = true
      · rw [if_pos hmax]
        exact hn'
      · rw [if_neg hmax]
        exact discoverAux_nodup g listUrl maxPages fuel (normalize_url url :: seen)
          (q ++ (g url).filter (fun v => (renderUrl v).startsWith listUrl))
          (pages ++ [url]) (fetched ++ [url]) hn' hs'

set_option maxRecDepth 40000 in
/-- C7: during listing-page discovery no URL is fetched twice when keyed by
its normalized form: the fetch log of the BFS always has pairwise-distinct
`normalize_url` images, for every page graph, namespace root, page cap and
fuel.  Moreover normalization sorts query parameters (so
`?a=1&b=2` and `?b=2&a=1` normalize identically), strips trailing slashes
and drops the fragment. -/
theorem frontier_no_revisit :
    (∀ (g : Url → List Url) (listUrl : String) (start : Url)
      (maxPages : Option Nat) (fuel : Nat),
      (((discover_listing_pages g listUrl start maxPages fuel).2).map
        normalize_url).Nodup) ∧
    normalize_url ⟨"https", "www.dtcdecode.com", "/Land-Rover",
        [("a", "1"), ("b", "2")], ""⟩ =
      normalize_url ⟨"https", "www.dtcdecode.com", "/Land-Rover",
        [("b", "2"), ("a", "1")], ""⟩ ∧
    normalize_url ⟨"https", "h", "/x/", [], "frag"⟩ =
      normalize_url ⟨"https", "h", "/x", [], ""⟩ := by
  refine ⟨fun g listUrl start maxPages fuel => ?_, by decide, by decide⟩
  exact discoverAux_nodup g listUrl maxPages fuel [] [start] [] []
    (by simp) (by simp)

/-- C8: a detail page whose extracted Code fails the grammar still yields a
record — carrying the code, URL, definition and sections — in which the
`base_code`, `fmi_hex`, `fmi_meaning` and `hex_triplet` keys are simply
absent; and conversely a record carrying a canonical triplet can only arise
from a Code matching the grammar exactly. -/
theorem malformed_code_record :
    (∀ (titleDtc : Option PyStr) (titleDef : Option String) (url : String)
      (page : List Node),
      dtcSegmentMatch (titleDtc.getD (pyUpper (lastSeg url))) = false →
      parse_detail_page titleDtc titleDef url page =
        { dtc := titleDtc.getD (pyUpper (lastSeg url)), url := url
          definition := titleDef, sections := extract_sections page }) ∧
    (∀ (titleDtc : Option PyStr) (titleDef : Option String) (url : String)
      (page : List Node),
      (parse_detail_page titleDtc titleDef url page).hex_triplet ≠ none →
      dtcSegmentMatch ((parse_detail_page titleDtc titleDef url page).dtc) = true) := by
  constructor
  · intro titleDtc titleDef url page h
    unfold parse_detail_page
    rw [if_neg (by simp [h])]
  · intro titleDtc titleDef url page
    unfold parse_detail_page
    by_cases h : dtcSegmentMatch (titleDtc.getD (pyUpper (lastSeg url))) = true
    · rw [if_pos h]
      split
      · intro _
        exact h
      · intro _
        exact h
    · rw [if_neg h]
      intro hne
      exact absurd rfl hne

/-- C8 witness: the malformed code `NOTACODE` (from the page title) still
yields a record with the optional fields absent. -/
theorem malformed_code_record_witness :
    parse_detail_page (some (str2l "NOTACODE")) none "https://x/y" [] =
      { dtc := str2l "NOTACODE", url := "https://x/y", definition := none,
        sections := [] } := by
  have h := malformed_code_record.1 (some (str2l "NOTACODE")) none
    "https://x/y" [] (by decide)
  rw [h]
  decide

/-- C9: when a table carries header cells inside `thead`, the headers are
taken from those cells but the header row is NOT removed from the collected
body rows: the returned `rows` begin with a row equal to the header cells
themselves (its width equals the header width, so normalization leaves it
unchanged), and the headers extend the `thead` texts on the right. -/
theorem thead_header_row_duplicated (hcells : List TCell) (rest : List TRow)
    (H : List String) (hTh : ∀ c ∈ hcells, c.isTh = true)
    (hTexts : hcells.map TCell.text = H) (hNe : H ≠ [])
    (hRest : ∀ r ∈ rest, r.inThead = false) :
    (html_table_to_data ⟨⟨true, hcells⟩ :: rest⟩).rows.head? = some H ∧
    ∃ ext, (html_table_to_data ⟨⟨true, hcells⟩ :: rest⟩).headers = H ++ ext := by
  have hhead : theadThTexts ⟨⟨true, hcells⟩ :: rest⟩ = H := by
    unfold theadThTexts
    have h1 : List.filter (fun r => r.inThead) (⟨true, hcells⟩ :: rest) =
        [⟨true, hcells⟩] := by
      rw [List.filter_cons_of_pos (by rfl)]
      rw [List.filter_eq_nil_iff.mpr (by
        intro r hr
        simp [hRest r hr])]
    rw [h1]
    simp only [List.flatMap_cons, List.flatMap_nil, List.append_nil]
    rw [List.filter_eq_self.mpr (by
      intro c hc
      simpa using hTh c hc)]
    exact hTexts
  have hrows : ((⟨true, hcells⟩ :: rest : List TRow).map
      (fun r => r.cells.map (·.text))).filter (· ≠ []) =
      H :: ((rest.map (fun r => r.cells.map (·.text))).filter (· ≠ [])) := by
    rw [List.map_cons]
    dsimp only
    rw [hTexts]
    rw [List.filter_cons_of_pos (by simpa using hNe)]
  unfold html_table_to_data
  rw [hhead, hrows]
  dsimp only
  rw [if_neg (by simp [hNe])]
  have hstep : normStep (H, []) H = (H, [H]) := by
    unfold normStep
    dsimp only
    rw [if_neg (by omega), if_neg (by omega)]
    rfl
  unfold normalizeRows
  rw [List.foldl_cons, hstep]
  obtain ⟨ext, acc2, hfold, _⟩ := normalizeRows_foldl_shape
    ((rest.map (fun r => r.cells.map (·.text))).filter (· ≠ [])) H [H]
  rw [hfold]
  exact ⟨rfl, ext, rfl⟩

/-- C9 witness: a concrete table with `thead` headers `A,B` and one body
row duplicates the header row as the first data row. -/
theorem thead_header_row_duplicated_witness :
    (html_table_to_data ⟨[⟨true, [⟨true, "A"⟩, ⟨true, "B"⟩]⟩,
      ⟨false, [⟨false, "1"⟩, ⟨false, "2"⟩]⟩]⟩).rows.head? = some ["A", "B"] ∧
    ∃ ext, (html_table_to_data ⟨[⟨true, [⟨true, "A"⟩, ⟨true, "B"⟩]⟩,
      ⟨false, [⟨false, "1"⟩, ⟨false, "2"⟩]⟩]⟩).headers = ["A", "B"] ++ ext :=
  thead_header_row_duplicated [⟨true, "A"⟩, ⟨true, "B"⟩]
    [⟨false, [⟨false, "1"⟩, ⟨false, "2"⟩]⟩] ["A", "B"]
    (by decide) (by decide) (by decide) (by decide)

/-- Membership in `firstVals` is first-match lookup in the original pair
list. -/
theorem mem_firstVals (q : List (String × String)) (k v : String) :
    (k, v) ∈ firstVals q ↔ q.lookup k = some v := by
  induction q with
  | nil => simp [firstVals]
  | cons p rest ih =>
    obtain ⟨k0, v0⟩ := p
    by_cases hk : k = k0
    · subst hk
      have hbeq : (k == k) = true := beq_self_eq_true k
      simp only [firstVals, List.mem_cons, List.mem_filter, List.lookup,
        hbeq, Prod.mk.injEq]
      constructor
      · rintro (⟨_, rfl⟩ | ⟨_, habs⟩)
        · rfl
        · simp at habs
      · intro hv
        injection hv with hv
        exact Or.inl ⟨trivial, hv.symm⟩
    · have hbeq : (k == k0) = false := beq_eq_false_iff_ne.mpr hk
      simp only [firstVals, List.mem_cons, List.mem_filter, List.lookup,
        hbeq, Prod.mk.injEq]
      rw [← ih]
      constructor
      · rintro (⟨h1, _⟩ | ⟨hmem, _⟩)
        · exact absurd h1 hk
        · exact hmem
      · intro hmem
        exact Or.inr ⟨hmem, by simpa using hk⟩

/-- The keys surviving `firstVals` are distinct. -/
theorem firstVals_keys_nodup (q : List (String × String)) :
    ((firstVals q).map Prod.fst).Nodup := by
  induction q with
  | nil => simp [firstVals]
  | cons p rest ih =>
    obtain ⟨k0, v0⟩ := p
    simp only [firstVals, List.map_cons, List.nodup_cons]
    constructor
    · intro hmem
      rw [List.mem_map] at hmem
      obtain ⟨⟨k', v'⟩, hmem, hfst⟩ := hmem
      rw [List.mem_filter] at hmem
      have := hmem.2
      simp only [decide_eq_true_eq] at this
      exact this hfst
    · exact ((List.filter_sublist _).map Prod.fst).nodup ih

/-- The pairs surviving `firstVals` are distinct. -/
theorem firstVals_nodup (q : List (String × String)) : (firstVals q).Nodup :=
  (firstVals_keys_nodup q).of_map

/-- C10: `normalize_url` keeps only the first value supplied for each query
key — any two URLs agreeing componentwise whose query pair lists have the
same first-match lookup for every key (e.g. `?a=1&a=2` and `?a=1`)
normalize to the same string, and are therefore identified by every
normalized-URL deduplication. -/
theorem normalize_url_repeated_keys (s n p f : String)
    (q q' : List (String × String))
    (h : ∀ k, q.lookup k = q'.lookup k) :
    normalize_url ⟨s, n, p, q, f⟩ = normalize_url ⟨s, n, p, q', f⟩ := by
  have hperm : (firstVals q).Perm (firstVals q') := by
    apply List.perm_of_nodup_nodup_toFinset_eq (firstVals_nodup q)
      (firstVals_nodup q')
    ext x
    obtain ⟨k, v⟩ := x
    simp only [List.mem_toFinset]
    rw [mem_firstVals, mem_firstVals, h k]
  have hsorted : pySorted (firstVals q) = pySorted (firstVals q') :=
    List.eq_of_perm_of_sorted
      (((List.perm_insertionSort pairLe _).trans hperm).trans
        (List.perm_insertionSort pairLe _).symm)
      (List.sorted_insertionSort pairLe _)
      (List.sorted_insertionSort pairLe _)
  unfold normalize_url
  rw [hsorted]

/-- C10 witness: `?a=1&a=2` and `?a=1` normalize identically. -/
theorem normalize_url_repeated_keys_witness :
    normalize_url ⟨"https", "h", "/p", [("a", "1"), ("a", "2")], ""⟩ =
      normalize_url ⟨"https", "h", "/p", [("a", "1")], ""⟩ := by
  apply normalize_url_repeated_keys
  intro k
  by_cases hk : k = "a"
  · simp [List.lookup, hk]
  · have hbeq : (k == "a") = false := beq_eq_false_iff_ne.mpr hk
    simp [List.lookup, hbeq]

end Landrover
